import Mathlib

/-!
Verification of the distributed SVM hyperparameter-search engine in
`cStress_model_param_fold_parallel_spark.py` (repository
`Spark-Parallel-Model-Training-for-SVM-rbf`).

The Python source is shallowly embedded: numeric values become `ℚ`
(the Python code computes with floats; every concrete input used below keeps
all compared quantities far from the `0.95` decision boundary, where float and
exact rational comparison agree), numpy arrays become `List`, and the
estimator's fit/predict capability (external per the specification) becomes an
abstract function parameter.  Each definition carries a comment naming the
source lines it embeds.
-/

/-! ### Sorting helpers

`np.argsort` on the probability column (line 229) orders rows by ascending
probability; Python's `sorted(..., reverse=True)` (lines 482, 609) is a stable
descending sort.  Both are modelled by insertion sorts.  For the ascending sort
ties between equal probabilities are kept in array order (`np.argsort`'s
quicksort leaves tie order unspecified; every concrete input below has
distinct probabilities, where all orders agree). -/

/-- Insert a `(probability, label)` row into an ascending-by-probability list,
keeping rows with strictly smaller probability in front. -/
def insertAsc (x : ℚ × ℚ) : List (ℚ × ℚ) → List (ℚ × ℚ)
  | [] => [x]
  | y :: t => if y.1 < x.1 then y :: insertAsc x t else x :: y :: t

/-- Sort `(probability, label)` rows by ascending probability: the embedding of
`db = db[np.argsort(db[:, 0]), :]` (line 229). -/
def sortAsc : List (ℚ × ℚ) → List (ℚ × ℚ)
  | [] => []
  | x :: t => insertAsc x (sortAsc t)

/-! ### The two-bias scorer, `two_bias_scorer_CV` (lines 227-281)

The outer loop scans a lower cut `i`; the inner loop scans an upper cut `j`.
The embedding threads the state `(minloss, optbias)` exactly as the source
mutates it.  A ghost boolean is threaded through the outer loop recording
whether an evaluated sensitivity/specificity quotient had a zero denominator
(numpy evaluates `0/0` to `nan` with a warning rather than raising, and
`nan >= 0.95` is false; rational division by zero yields `0`, and
`0 >= 0.95` is likewise false, so the control flow of the embedding agrees
with the source on those inputs).  The inner loop's divisions sit behind the
`running_pos == 0 or running_neg == 0` break (lines 268-269), which
executes before the quotients, so they never see a zero denominator and the
ghost flag is not threaded there. -/

/-- Inner loop of `two_bias_scorer_CV` (lines 259-276): scan upper cuts
`j = i+1, ...` over the suffix of the sorted rows, updating
`(minloss, optbias)` whenever both constraints hold and the rejected fraction
improves.  Arguments: sample count `n`, lower-cut position `i`, lower-cut
probability `pval`, then the remaining rows, current `j`, `running_tp`,
`running_tn`, `running_pos`, `running_neg`, and the `(minloss, optbias)`
state. -/
def innerLoop (n i : ℕ) (pval : ℚ) :
    List (ℚ × ℚ) → ℕ → ℚ → ℚ → ℚ → ℚ → ℚ × List ℚ → ℚ × List ℚ
  | [], _, _, _, _, _, st => st
  | (pj, yj) :: rest, j, rtp, rtn, rpos, rneg, st =>
    let rtp' := if yj == 1 then rtp - 1 else rtp
    let rpos' := if yj == 1 then rpos - 1 else rpos
    let rneg' := if yj == 1 then rneg else rneg - 1
    let lost : ℚ := ((j : ℚ) - (i : ℚ)) / (n : ℚ)
    if rpos' = 0 ∨ rneg' = 0 then st
    else if rtp' / rpos' ≥ 19/20 ∧ rtn / rneg' ≥ 19/20 ∧ lost < st.1 then
      innerLoop n i pval rest (j + 1) rtp' rtn rpos' rneg' (lost, [pval, pj])
    else
      innerLoop n i pval rest (j + 1) rtp' rtn rpos' rneg' st

/-- Outer loop of `two_bias_scorer_CV` (lines 240-276): scan lower cuts `i`
over the sorted rows.  When a single cut already meets both constraints the
source records a zero-width pair `[db[i,0], db[i,0]]` and `continue`s WITHOUT
touching `minloss` (lines 250-252); otherwise the inner loop runs.  The state
is `(minloss, optbias, divzero-ghost)`. -/
def outerLoop (posq negq : ℚ) (n : ℕ) :
    List (ℚ × ℚ) → ℕ → ℚ → ℚ → ℚ × List ℚ × Bool → ℚ × List ℚ × Bool
  | [], _, _, _, st => st
  | (pv, yv) :: rest, i, tp, tn, st =>
    let tp' := if yv == 1 then tp - 1 else tp
    let tn' := if yv == 1 then tn else tn + 1
    let dz' := st.2.2 || decide (posq = 0) ||
      (if tp' / posq ≥ 19/20 then decide (negq = 0) else false)
    if tp' / posq ≥ 19/20 ∧ tn' / negq ≥ 19/20 then
      outerLoop posq negq n rest (i + 1) tp' tn' (st.1, [pv, pv], dz')
    else
      let inner := innerLoop n i pv rest (i + 1) tp' tn' posq negq (st.1, st.2.1)
      outerLoop posq negq n rest (i + 1) tp' tn' (inner.1, inner.2, dz')

/-- The sorted `(probability, label)` table `db` (lines 228-229). -/
def sortedDB (probs y : List ℚ) : List (ℚ × ℚ) := sortAsc (probs.zip y)

/-- `pos = np.sum(y == 1)` (line 231), as a rational. -/
def posQ (y : List ℚ) : ℚ := ((y.filter (fun l => l == 1)).length : ℚ)

/-- `neg = n - pos` (line 233), as a rational. -/
def negQ (y : List ℚ) : ℚ := (y.length : ℚ) - posQ y

/-- Full run of `two_bias_scorer_CV` (lines 227-281) returning
`(score, optbias, divzero-ghost)`; the score is `-minloss` (line 279). -/
def twoBiasFull (probs y : List ℚ) : ℚ × List ℚ × Bool :=
  let res := outerLoop (posQ y) (negQ y) y.length (sortedDB probs y) 0 (posQ y) 0 (1, [], false)
  (-res.1, res.2.1, res.2.2)

/-- `two_bias_scorer_CV(probs, y, ret_bias=True)` (lines 227-281): the
`(score, optbias)` pair returned at line 279. -/
def two_bias_scorer_CV (probs y : List ℚ) : ℚ × List ℚ :=
  ((twoBiasFull probs y).1, (twoBiasFull probs y).2.1)

/-- Ghost observation: `true` iff some evaluated sensitivity/specificity
quotient of `two_bias_scorer_CV` had a zero denominator (numpy computes `nan`
there instead of raising). -/
def two_bias_divzero (probs y : List ℚ) : Bool :=
  (twoBiasFull probs y).2.2

/-- `cstress_spark_parallel_fold_param_model_main` serializes a model only
when the returned bias is nonempty: `if not bias == []` (line 693). -/
def shouldSaveModel (bias : List ℚ) : Bool := !(bias == [])

/-! ### Closed forms for the scan state

The loop counters admit closed forms in terms of label counts over initial
segments of the sorted table; the claim hypotheses are phrased with these. -/

/-- Number of positive-label rows among the first `k` rows of `db`. -/
def posCnt (db : List (ℚ × ℚ)) (k : ℕ) : ℕ :=
  ((db.take k).filter (fun r => r.2 == 1)).length

/-- Number of non-positive-label rows among the first `k` rows of `db`. -/
def negCnt (db : List (ℚ × ℚ)) (k : ℕ) : ℕ :=
  ((db.take k).filter (fun r => !(r.2 == 1))).length

/-- The single-cut test of lines 250-252 at lower cut `i`: after removing the
first `i+1` rows from the decided-positive pool, both sensitivity and
specificity reach `0.95`. -/
def singleCutAt (db : List (ℚ × ℚ)) (posq negq : ℚ) (i : ℕ) : Prop :=
  (posq - (posCnt db (i + 1) : ℚ)) / posq ≥ 19/20 ∧
    ((negCnt db (i + 1) : ℚ)) / negq ≥ 19/20

instance (db : List (ℚ × ℚ)) (posq negq : ℚ) (i : ℕ) :
    Decidable (singleCutAt db posq negq i) := by
  unfold singleCutAt; infer_instance

/-- The paired-cut test of lines 268-274 at cuts `i < j`, in closed form:
nonempty remaining pools and both running rates at least `0.95`. -/
def pairedOKAt (db : List (ℚ × ℚ)) (posq negq : ℚ) (i j : ℕ) : Prop :=
  ¬((posq - ((posCnt db (j + 1) : ℚ) - (posCnt db (i + 1) : ℚ))) = 0 ∨
      (negq - ((negCnt db (j + 1) : ℚ) - (negCnt db (i + 1) : ℚ))) = 0) ∧
    (posq - (posCnt db (j + 1) : ℚ)) /
        (posq - ((posCnt db (j + 1) : ℚ) - (posCnt db (i + 1) : ℚ))) ≥ 19/20 ∧
    ((negCnt db (i + 1) : ℚ)) /
        (negq - ((negCnt db (j + 1) : ℚ) - (negCnt db (i + 1) : ℚ))) ≥ 19/20

instance (db : List (ℚ × ℚ)) (posq negq : ℚ) (i j : ℕ) :
    Decidable (pairedOKAt db posq negq i j) := by
  unfold pairedOKAt; infer_instance

/-- The largest index `k` in `[i, i + c)` passing the single-cut test, if
any. -/
def lastSCAux (db : List (ℚ × ℚ)) (posq negq : ℚ) : ℕ → ℕ → Option ℕ
  | 0, _ => none
  | c + 1, i =>
    match lastSCAux db posq negq c (i + 1) with
    | some k => some k
    | none => if singleCutAt db posq negq i then some i else none

/-- The zero-width pair `[db[k,0], db[k,0]]` recorded by the single-cut branch
(line 251). -/
def zeroWidth (db : List (ℚ × ℚ)) (k : ℕ) : List ℚ :=
  match db[k]? with
  | some r => [r.1, r.1]
  | none => []

/-! ### Work items, parallel reassembly and score aggregation
(`GridSearchCVSparkParallel.fit`, lines 388-497, and the textually identical
`RandomGridSearchCVSparkParallel.fit`, lines 518-624). -/

/-- The work-item list
`[(parameters, train, test) for parameters in parameter_iterable
                            for (train, test) in cv]` (lines 418-420 and
544-546), with the fold pair abstracted to a type `F`. -/
def buildItems {P F : Type} (params : List P) (cv : List F) : List (P × F) :=
  params.flatMap (fun p => cv.map (fun f => (p, f)))

/-- One collected result of `_fit_and_score(..., return_parameters=True)`:
the quadruple `[score, n_test_samples, scoring_time, parameters]` unpacked at
lines 460-461 as `this_score, this_n_test_samples, _, parameters`. -/
structure FitResult (P : Type) where
  score : ℚ
  n_test : ℕ
  time : ℚ
  parameters : P
deriving DecidableEq

instance {P : Type} [Inhabited P] : Inhabited (FitResult P) :=
  ⟨⟨0, 0, 0, default⟩⟩

/-- One entry of `grid_scores_`: sklearn's `_CVScoreTuple(parameters, score,
all_scores)` (lines 473-476). -/
structure CVScoreTuple (P : Type) where
  parameters : P
  mean_validation_score : ℚ
  cv_validation_scores : List ℚ
deriving DecidableEq

/-- First-match lookup over an association list of indexed results, searched
from the most recently inserted pair: the embedding of looking a key up in
`dict(...)` built from `collect()`ed `(index, result)` pairs (line 444),
where a later pair with the same key overwrites an earlier one. -/
def dictLookup {R : Type} (collected : List (ℕ × R)) (idx : ℕ) : Option R :=
  collected.reverse.lookup idx

/-- Evaluate `g` on every index of a list, failing if any lookup fails. -/
def lookupAll {R : Type} (g : ℕ → Option R) : List ℕ → Option (List R)
  | [] => some []
  | i :: t =>
    match g i, lookupAll g t with
    | some r, some rs => some (r :: rs)
    | _, _ => none

/-- `out = [indexed_output[idx] for idx in range(len(param_grid))]`
(line 445 / line 571): rebuild the result list in generation order from the
collected `(index, result)` pairs; `none` models the `KeyError` raised when
an index is missing. -/
def reassemble {R : Type} (collected : List (ℕ × R)) (N : ℕ) : Option (List R) :=
  lookupAll (fun idx => dictLookup collected idx) (List.range N)

/-- Split a list into consecutive blocks of `k` elements: the block structure
of `for grid_start in range(0, n_fits, n_folds)` with the slice
`out[grid_start:grid_start + n_folds]` (lines 456-461).  (`k = 0`, on which
Python's `range` would raise, yields `[]`.) -/
def chunks {α : Type} : ℕ → List α → List (List α)
  | _, [] => []
  | 0, _ :: _ => []
  | k + 1, a :: t => (a :: t).take (k + 1) :: chunks (k + 1) ((a :: t).drop (k + 1))
termination_by _ l => l.length
decreasing_by simp only [List.drop_succ_cons, List.length_drop, List.length_cons]; omega

/-- The per-block aggregation loop of lines 457-476: accumulate
`(n_test_samples, score, all_scores)` over the block, then divide by the
total test size (`iid`) or by `n_folds`.  The block's `parameters` field is
the value left in the loop variable by the block's LAST tuple, exactly as the
Python loop leaks it into `scores.append((score, parameters))` and
`_CVScoreTuple(parameters, ...)` (lines 471-476). -/
def blockScore {P : Type} [Inhabited P] (iid : Bool) (n_folds : ℕ)
    (block : List (FitResult P)) : CVScoreTuple P :=
  let acc := block.foldl
    (fun (a : ℕ × ℚ × List ℚ) (r : FitResult P) =>
      if iid then (a.1 + r.n_test, a.2.1 + r.score * (r.n_test : ℚ), a.2.2 ++ [r.score])
      else (a.1, a.2.1 + r.score, a.2.2 ++ [r.score]))
    (0, 0, [])
  ⟨((block.getLast?).getD default).parameters,
    if iid then acc.2.1 / (acc.1 : ℚ) else acc.2.1 / (n_folds : ℚ),
    acc.2.2⟩

/-- `grid_scores_` (lines 454-478): one `CVScoreTuple` per contiguous block of
`n_folds` results. -/
def gridScores {P : Type} [Inhabited P] (iid : Bool) (n_folds : ℕ)
    (out : List (FitResult P)) : List (CVScoreTuple P) :=
  (chunks n_folds out).map (blockScore iid n_folds)

/-- Stable-descending insertion used to model Python's
`sorted(grid_scores, key=lambda x: x.mean_validation_score, reverse=True)`
(lines 482-483): an element moves past `y` only when `y`'s key is strictly
larger, so equal keys keep their original relative order, exactly the
stability guarantee of Python's sort. -/
def insertDesc {P : Type} (x : CVScoreTuple P) :
    List (CVScoreTuple P) → List (CVScoreTuple P)
  | [] => [x]
  | y :: t =>
    if x.mean_validation_score < y.mean_validation_score then y :: insertDesc x t
    else x :: y :: t

/-- Stable descending sort by `mean_validation_score`. -/
def sortDesc {P : Type} : List (CVScoreTuple P) → List (CVScoreTuple P)
  | [] => []
  | x :: t => insertDesc x (sortDesc t)

/-- `best = sorted(grid_scores, key=..., reverse=True)[0]` (lines 482-483):
the head of the stable descending sort; `none` models the `IndexError` on an
empty list. -/
def bestOf {P : Type} (gs : List (CVScoreTuple P)) : Option (CVScoreTuple P) :=
  (sortDesc gs).head?

/-! ### Scorer selection (claim C2)

`check_scoring` is external sklearn code; its documented behaviour, relied on
at lines 384 and 514, is that with `scoring=None` it returns the estimator's
own default `score` method.  The dual-threshold scorers are selected in
`cstress_spark_parallel_fold_param_model_main` (lines 669-672) and applied
once at line 690; the search objects are constructed with `scoring=None`
(lines 675-679). -/

/-- Which scoring function a configuration denotes. -/
inductive ScorerKind : Type where
  | estimatorDefault : ScorerKind
  | f1BiasCV : ScorerKind
  | twoBiasCV : ScorerKind
deriving DecidableEq

/-- sklearn's `check_scoring(estimator, scoring)` as used at lines 384/514:
`scoring=None` yields the estimator's default score method. -/
def check_scoring (scoring : Option ScorerKind) : ScorerKind :=
  match scoring with
  | none => ScorerKind.estimatorDefault
  | some s => s

/-- The `scoring` argument the main routine passes to both search classes:
`scoring=None` (lines 675-679). -/
def searchScoringArg : Option ScorerKind := none

/-- The scorer actually used for every work item during the search:
`self.scorer_ = check_scoring(self.estimator, scoring=self.scoring)`
(lines 384/514), fed to `_fit_and_score` at lines 439/565. -/
def searchScorer : ScorerKind := check_scoring searchScoringArg

/-- The dual-threshold scorer selected from the command line and applied to
the final out-of-fold predictions (lines 669-672 and 690). -/
def selectedFinalScorer (scorerArg : String) : ScorerKind :=
  if scorerArg = "f1" then ScorerKind.f1BiasCV else ScorerKind.twoBiasCV

/-! ### Out-of-fold probabilities, `cross_val_probs` (lines 362-369) -/

/-- The body of `predicted_values[test] = temp[:, 1]` for one fold: write the
fitted model's probability for each test index.  The estimator's
`fit(X[train], y[train]).predict_proba(X[test])[:, 1]` capability is
abstracted (per the specification it is an external collaborator) as
`fitPredict train t`: the positive-class probability the model fitted on
`train` assigns to sample `t`. -/
def writeIdx (fitPredict : List ℕ → ℕ → ℚ) (train : List ℕ) :
    List ℕ → List ℚ → List ℚ
  | [], pred => pred
  | t :: ts, pred => writeIdx fitPredict train ts (pred.set t (fitPredict train t))

/-- `cross_val_probs(estimator, X, y, cv)` (lines 362-369):
start from `np.zeros(len(y))` and, for each `(train, test)` fold, overwrite
the test positions with the fold model's probabilities. -/
def cross_val_probs (fitPredict : List ℕ → ℕ → ℚ) (n : ℕ)
    (cv : List (List ℕ × List ℕ)) : List ℚ :=
  cv.foldl (fun pred fold => writeIdx fitPredict fold.1 fold.2 pred)
    (List.replicate n 0)

/-! ## Theorems -/

/-! ### Claim C2

The claim says every work item's score during the search is computed by the
selected dual-threshold scorer.  In the source, the search classes score work
items with `self.scorer_ = check_scoring(self.estimator, scoring=self.scoring)`
and both search objects are constructed with `scoring=None`, so the per-item
scorer is the estimator's default score method; the dual-threshold scorer
chosen from the command line is applied only once, to the final out-of-fold
predictions. -/

/-- Claim C2, counterexample: the scorer used for work items during the search
is not the selected dual-threshold scorer, whichever of the two the command
line selects (`"f1"` and anything else, e.g. `"twobias"`). -/
theorem c2_counterexample :
    searchScorer ≠ selectedFinalScorer "f1" ∧
      searchScorer ≠ selectedFinalScorer "twobias" := by
  constructor <;> decide

/-- Claim C2 (amended): during the search every work item is scored by the
estimator's default score method (`check_scoring` of the `scoring=None`
argument), and the dual-threshold scorer selected from the command line —
which is never the estimator default — is applied only in the final
evaluation step. -/
theorem c2_search_uses_default_scorer (arg : String) :
    searchScorer = ScorerKind.estimatorDefault ∧
      selectedFinalScorer arg ≠ ScorerKind.estimatorDefault ∧
      (selectedFinalScorer arg = ScorerKind.f1BiasCV ∨
        selectedFinalScorer arg = ScorerKind.twoBiasCV) := by
  refine ⟨rfl, ?_, ?_⟩ <;> unfold selectedFinalScorer <;> split <;> simp

/-! ### Claim C6

The claim says an empty prediction vector makes either scorer fail with
`InsufficientDataError`.  No such error exists anywhere in the source;
`two_bias_scorer_CV` on empty input runs both loops zero times and returns
the initial state as a normal score. -/

/-- Claim C6, counterexample: on the empty prediction vector
`two_bias_scorer_CV` returns the ordinary score value `-1` with an empty bias
instead of failing (its loops simply do not run; no `InsufficientDataError`
exists in the source). -/
theorem c6_counterexample : two_bias_scorer_CV [] [] = (-1, []) := by
  with_unfolding_all rfl

/-- Claim C6 (amended): on the empty prediction vector `two_bias_scorer_CV`
returns normally with score `-1` and empty bias, and the caller's empty-bias
check then routes to the no-model branch, so nothing is serialized. -/
theorem c6_empty_input_returns_score :
    (two_bias_scorer_CV [] []).1 = -1 ∧ (two_bias_scorer_CV [] []).2 = [] ∧
      shouldSaveModel (two_bias_scorer_CV [] []).2 = false := by
  refine ⟨?_, ?_, ?_⟩ <;> with_unfolding_all rfl

/-! ### Claim C7: selection of the best parameter setting -/

/-- The head of an `insertDesc` insertion: the inserted element wins the front
only when its key is not smaller than the current head's. -/
theorem head?_insertDesc {P : Type} (x : CVScoreTuple P)
    (l : List (CVScoreTuple P)) :
    (insertDesc x l).head? = some (match l.head? with
      | none => x
      | some y =>
        if x.mean_validation_score < y.mean_validation_score then y else x) := by
  cases l with
  | nil => rfl
  | cons y r =>
    show (if x.mean_validation_score < y.mean_validation_score then
        y :: insertDesc x r else x :: y :: r).head? = _
    by_cases h : x.mean_validation_score < y.mean_validation_score <;>
      simp [h]

/-- Recurrence for `bestOf` on a cons cell. -/
theorem bestOf_cons {P : Type} (x : CVScoreTuple P) (t : List (CVScoreTuple P)) :
    bestOf (x :: t) = some (match bestOf t with
      | none => x
      | some y =>
        if x.mean_validation_score < y.mean_validation_score then y else x) := by
  show (insertDesc x (sortDesc t)).head? = _
  rw [head?_insertDesc]
  rfl

/-- `bestOf` yields something exactly on nonempty input. -/
theorem bestOf_ne_none {P : Type} (t : List (CVScoreTuple P)) (ht : t ≠ []) :
    bestOf t ≠ none := by
  cases t with
  | nil => exact absurd rfl ht
  | cons x r => rw [bestOf_cons]; simp

/-- Claim C7: the search selects, among the per-parameter aggregate scores in
generation order, an entry with maximal `mean_validation_score`, and on exact
ties the earliest-generated one — every strictly earlier entry has a strictly
smaller mean score.  (`sorted` in Python is stable, and with `reverse=True`
equal keys keep their original relative order; `bestOf` is the head of the
stable descending sort of lines 482-483.) -/
theorem c7_best_is_earliest_max {P : Type} (gs : List (CVScoreTuple P))
    (hne : gs ≠ []) :
    ∃ b i, bestOf gs = some b ∧ gs.get? i = some b ∧
      (∀ j t, gs.get? j = some t →
        t.mean_validation_score ≤ b.mean_validation_score) ∧
      (∀ j t, j < i → gs.get? j = some t →
        t.mean_validation_score < b.mean_validation_score) := by
  induction gs with
  | nil => exact absurd rfl hne
  | cons x t ih =>
    by_cases ht : t = []
    · subst ht
      refine ⟨x, 0, by rw [bestOf_cons]; rfl, rfl, ?_, ?_⟩
      · intro j tt hj
        cases j with
        | zero =>
          obtain rfl : x = tt := by simpa using hj
          exact le_refl _
        | succ j => simp [List.get?] at hj
      · intro j tt hjlt _
        exact absurd hjlt (Nat.not_lt_zero j)
    · obtain ⟨b, i, hbest, hget, hmax, hstrict⟩ := ih ht
      by_cases hx : x.mean_validation_score < b.mean_validation_score
      · refine ⟨b, i + 1, ?_, by simpa using hget, ?_, ?_⟩
        · rw [bestOf_cons, hbest]; simp [hx]
        · intro j tt hj
          cases j with
          | zero =>
            obtain rfl : x = tt := by simpa using hj
            exact le_of_lt hx
          | succ j => exact hmax j tt (by simpa using hj)
        · intro j tt hjlt hj
          cases j with
          | zero =>
            obtain rfl : x = tt := by simpa using hj
            exact hx
          | succ j =>
            exact hstrict j tt (Nat.lt_of_succ_lt_succ hjlt) (by simpa using hj)
      · refine ⟨x, 0, ?_, rfl, ?_, ?_⟩
        · rw [bestOf_cons, hbest]; simp [hx]
        · intro j tt hj
          cases j with
          | zero =>
            obtain rfl : x = tt := by simpa using hj
            exact le_refl _
          | succ j =>
            exact le_trans (hmax j tt (by simpa using hj)) (not_lt.mp hx)
        · intro j tt hjlt _
          exact absurd hjlt (Nat.not_lt_zero j)

/-- Claim C7, witness: the selection property instantiated on a concrete
score list with a tie between positions 1 and 2 (zero-based). -/
theorem c7_witness :
    ∃ b i,
      bestOf [(⟨10, 1, []⟩ : CVScoreTuple ℕ), ⟨20, 2, []⟩, ⟨30, 2, []⟩] = some b ∧
      ([(⟨10, 1, []⟩ : CVScoreTuple ℕ), ⟨20, 2, []⟩, ⟨30, 2, []⟩].get? i = some b) ∧
      (∀ j t, [(⟨10, 1, []⟩ : CVScoreTuple ℕ), ⟨20, 2, []⟩, ⟨30, 2, []⟩].get? j = some t →
        t.mean_validation_score ≤ b.mean_validation_score) ∧
      (∀ j t, j < i →
        [(⟨10, 1, []⟩ : CVScoreTuple ℕ), ⟨20, 2, []⟩, ⟨30, 2, []⟩].get? j = some t →
        t.mean_validation_score < b.mean_validation_score) :=
  c7_best_is_earliest_max _ (by simp)

/-! ### Claim C9: contiguous parameter blocks in the work-item list -/

/-- Unfolding `buildItems` on a cons cell. -/
theorem buildItems_cons {P F : Type} (p : P) (ps : List P) (cv : List F) :
    buildItems (p :: ps) cv = cv.map (fun f => (p, f)) ++ buildItems ps cv := by
  simp [buildItems]

/-- Entry `b * |cv| + k` of the work-item list pairs parameter `b` with fold
`k`. -/
theorem buildItems_get? {P F : Type} (params : List P) (cv : List F) :
    ∀ b k_, b < params.length → k_ < cv.length →
      (buildItems params cv).get? (b * cv.length + k_) =
        (params.get? b).bind (fun p => (cv.get? k_).map (fun f => (p, f))) := by
  induction params with
  | nil => intro b k_ hb _; exact absurd hb (Nat.not_lt_zero b)
  | cons p ps ih =>
    intro b k_ hb hk
    cases b with
    | zero =>
      rw [buildItems_cons]
      have hlt : (0 : ℕ) * cv.length + k_ < (cv.map (fun f => (p, f))).length := by
        simpa using hk
      rw [List.get?_append hlt]
      simp [List.get?_map]
    | succ b =>
      rw [buildItems_cons]
      have hidx : (b + 1) * cv.length + k_ =
          (cv.map (fun f => (p, f))).length + (b * cv.length + k_) := by
        simp [Nat.succ_mul]; omega
      rw [hidx, List.get?_append_right (Nat.le_add_right _ _)]
      simp only [Nat.add_sub_cancel_left]
      exact ih b k_ (Nat.lt_of_succ_lt_succ hb) hk

/-- When the list length is an exact multiple of the block size, `chunks`
produces the `m` consecutive blocks. -/
theorem chunks_exact {α : Type} (k : ℕ) (hk : 0 < k) :
    ∀ (m : ℕ) (l : List α), l.length = m * k →
      chunks k l = (List.range m).map (fun b => (l.drop (b * k)).take k) := by
  intro m
  induction m with
  | zero =>
    intro l hl
    have : l = [] := List.eq_nil_of_length_eq_zero (by simpa using hl)
    subst this
    cases k <;> simp [chunks]
  | succ m ih =>
    intro l hl
    obtain ⟨k', rfl⟩ := Nat.exists_eq_succ_of_ne_zero (Nat.pos_iff_ne_zero.mp hk)
    have hlen : 0 < l.length := by
      rw [hl]; exact Nat.mul_pos (Nat.succ_pos m) hk
    obtain ⟨a, t, rfl⟩ : ∃ a t, l = a :: t := by
      cases l with
      | nil => simp at hlen
      | cons a t => exact ⟨a, t, rfl⟩
    have hstep : chunks (k' + 1) (a :: t) =
        (a :: t).take (k' + 1) :: chunks (k' + 1) ((a :: t).drop (k' + 1)) := by
      rw [chunks]
    rw [hstep, ih ((a :: t).drop (k' + 1))
      (by rw [List.length_drop, hl]; simp [Nat.succ_mul])]
    rw [List.range_succ_eq_map, List.map_cons, List.map_map]
    refine congrArg₂ _ (by simp) ?_
    refine List.map_congr_left ?_
    intro b _
    simp only [Function.comp_apply, List.drop_drop]
    have : k' + 1 + b * (k' + 1) = Nat.succ b * (k' + 1) := by
      rw [Nat.succ_mul]; omega
    rw [this]

/-- `gridScores` has one entry per exact block. -/
theorem gridScores_length {P : Type} [Inhabited P] (iid : Bool) (k m : ℕ)
    (hk : 0 < k) (out : List (FitResult P)) (hlen : out.length = m * k) :
    (gridScores iid k out).length = m := by
  unfold gridScores
  rw [chunks_exact k hk m out hlen]
  simp

/-- Entry `b` of `gridScores` is the aggregate of block `b`. -/
theorem gridScores_get? {P : Type} [Inhabited P] (iid : Bool) (k m b : ℕ)
    (hk : 0 < k) (out : List (FitResult P)) (hlen : out.length = m * k)
    (hb : b < m) :
    (gridScores iid k out).get? b =
      some (blockScore iid k ((out.drop (b * k)).take k)) := by
  unfold gridScores
  rw [chunks_exact k hk m out hlen, List.get?_map, List.get?_map,
    List.get?_range hb]
  rfl

/-- The last element of exact block `b` is entry `b * k + (k - 1)` of the full
list. -/
theorem block_getLast? {α : Type} (out : List α) (k m b : ℕ) (hk : 0 < k)
    (hlen : out.length = m * k) (hb : b < m) :
    ((out.drop (b * k)).take k).getLast? = out.get? (b * k + (k - 1)) := by
  have hblock : ((out.drop (b * k)).take k).length = k := by
    rw [List.length_take, List.length_drop, hlen]
    have : k ≤ m * k - b * k := by
      rw [← Nat.sub_mul]
      calc k = 1 * k := (Nat.one_mul k).symm
        _ ≤ (m - b) * k := Nat.mul_le_mul_right k (by omega)
    omega
  rw [List.getLast?_eq_get?, hblock, List.get?_take (by omega), List.get?_drop]

/-- Claim C9: in the work-item list
`[(parameters, train, test) for parameters in parameter_iterable
                            for (train, test) in cv]`,
every contiguous block of `n_folds = |cv|` consecutive items carries the same
parameter setting, namely entry `b` of the parameter sequence for block `b`;
consequently the aggregation loop — whose `_CVScoreTuple` takes the
`parameters` value left by the LAST tuple of each block — attributes to every
block its unique parameter setting. -/
theorem c9_block_parameters {P F : Type} [Inhabited P]
    (params : List P) (cv : List F) (iid : Bool) (out : List (FitResult P))
    (hcv : 0 < cv.length)
    (hlen : out.length = params.length * cv.length)
    (hpar : ∀ idx, idx < out.length →
      (out.get? idx).map (fun r => r.parameters) =
        ((buildItems params cv).get? idx).map Prod.fst) :
    (∀ b k_, b < params.length → k_ < cv.length →
      ((buildItems params cv).get? (b * cv.length + k_)).map Prod.fst =
        params.get? b)
    ∧ (gridScores iid cv.length out).length = params.length
    ∧ ∀ b, b < params.length →
      ((gridScores iid cv.length out).get? b).map (fun t => t.parameters) =
        params.get? b := by
  have hitem : ∀ b k_, b < params.length → k_ < cv.length →
      ((buildItems params cv).get? (b * cv.length + k_)).map Prod.fst =
        params.get? b := by
    intro b k_ hb hk
    rw [buildItems_get? params cv b k_ hb hk, List.get?_eq_get hb,
      List.get?_eq_get hk]
    simp
  refine ⟨hitem, gridScores_length iid cv.length params.length hcv out hlen, ?_⟩
  intro b hb
  rw [gridScores_get? iid cv.length params.length b hcv out hlen hb]
  have hidx : b * cv.length + (cv.length - 1) < out.length := by
    rw [hlen]
    have : (b + 1) * cv.length ≤ params.length * cv.length :=
      Nat.mul_le_mul_right _ (by omega)
    rw [Nat.succ_mul] at this
    omega
  obtain ⟨r, hr⟩ : ∃ r, out.get? (b * cv.length + (cv.length - 1)) = some r := by
    rw [List.get?_eq_get hidx]; exact ⟨_, rfl⟩
  have hlast := block_getLast? out cv.length params.length b hcv hlen hb
  have hp := hpar (b * cv.length + (cv.length - 1)) hidx
  rw [hr, hitem b (cv.length - 1) hb (by omega)] at hp
  show some (blockScore iid cv.length ((out.drop (b * cv.length)).take cv.length)).parameters = _
  unfold blockScore
  rw [hlast, hr]
  simpa using hp

/-- Claim C9, witness: two parameter settings, two folds, four results whose
`parameters` fields follow the work-item list; both blocks are attributed
their own parameter setting. -/
theorem c9_witness :
    (∀ b k_, b < 2 → k_ < 2 →
      ((buildItems [5, 7] [100, 200]).get? (b * 2 + k_)).map Prod.fst =
        [5, 7].get? b)
    ∧ (gridScores false 2
        [⟨1, 1, 0, 5⟩, ⟨2, 1, 0, 5⟩, ⟨3, 1, 0, 7⟩, ⟨4, 1, 0, 7⟩]).length = 2
    ∧ ∀ b, b < 2 →
      ((gridScores false 2
          ([⟨1, 1, 0, 5⟩, ⟨2, 1, 0, 5⟩, ⟨3, 1, 0, 7⟩,
            ⟨4, 1, 0, 7⟩] : List (FitResult ℕ))).get? b).map
          (fun t => t.parameters) = [5, 7].get? b :=
  c9_block_parameters [5, 7] [100, 200] false
    [⟨1, 1, 0, 5⟩, ⟨2, 1, 0, 5⟩, ⟨3, 1, 0, 7⟩, ⟨4, 1, 0, 7⟩]
    (by decide) (by decide) (by with_unfolding_all decide)

/-! ### Claim C1: order-independent reassembly of collected results -/

/-- If every pair of `l` whose key is `k` carries value `v`, and `(k, v)` is
in `l`, then lookup finds `v`. -/
theorem lookup_eq_some_of {R : Type} (k : ℕ) (v : R) :
    ∀ (l : List (ℕ × R)), (∀ p ∈ l, p.1 = k → p.2 = v) → (k, v) ∈ l →
      l.lookup k = some v := by
  intro l
  induction l with
  | nil => intro _ hm; simp at hm
  | cons a t ih =>
    intro hall hm
    obtain ⟨a1, a2⟩ := a
    rw [List.lookup_cons]
    by_cases h : k = a1
    · subst h
      have ha : a2 = v := hall (k, a2) (List.mem_cons_self _ _) rfl
      simp [ha]
    · have hne : (k == a1) = false := beq_false_of_ne h
      simp only [hne]
      refine ih (fun p hp hp1 => hall p (List.mem_cons_of_mem _ hp) hp1) ?_
      rw [List.mem_cons] at hm
      rcases hm with hm | hm
      · injection hm with h1 _h2
        exact absurd h1 h
      · exact hm

/-- If `g` succeeds on every listed index, `lookupAll` returns the mapped
list. -/
theorem lookupAll_eq_map {R : Type} (g : ℕ → Option R) (h : ℕ → R) :
    ∀ (is_ : List ℕ), (∀ i ∈ is_, g i = some (h i)) →
      lookupAll g is_ = some (is_.map h) := by
  intro is_
  induction is_ with
  | nil => intro _; rfl
  | cons i t ih =>
    intro hall
    have hg : g i = some (h i) := hall i (List.mem_cons_self i t)
    show (match g i, lookupAll g t with
      | some r, some rs => some (r :: rs)
      | _, _ => none) = _
    rw [hg, ih (fun j hj => hall j (List.mem_cons_of_mem _ hj))]
    rfl

/-- Claim C1: whatever completion order the parallel `collect()` delivers —
i.e. for EVERY permutation `collected` of the canonical indexed results —
rebuilding `out` by looking indices `0..N-1` up in the dictionary restores
the results in generation order, and hence the per-parameter grid scores and
the selected best result computed from `out` are identical to those of the
canonical order. -/
theorem c1_reassembly_deterministic {P : Type} [Inhabited P] (N : ℕ)
    (f : ℕ → FitResult P) (iid : Bool) (k : ℕ)
    (collected : List (ℕ × FitResult P))
    (hperm : collected.Perm ((List.range N).map (fun i => (i, f i)))) :
    reassemble collected N = some ((List.range N).map f) ∧
      (reassemble collected N).map (fun out => gridScores iid k out) =
        some (gridScores iid k ((List.range N).map f)) ∧
      (reassemble collected N).map (fun out => bestOf (gridScores iid k out)) =
        some (bestOf (gridScores iid k ((List.range N).map f))) := by
  have key : ∀ idx ∈ List.range N, dictLookup collected idx = some (f idx) := by
    intro idx _hidx
    unfold dictLookup
    refine lookup_eq_some_of idx (f idx) collected.reverse ?_ ?_
    · intro p hp hp1
      have hp' : p ∈ (List.range N).map (fun i => (i, f i)) :=
        hperm.mem_iff.mp (List.mem_reverse.mp hp)
      obtain ⟨i, _hi, hpe⟩ := List.mem_map.mp hp'
      subst hpe
      have hix : i = idx := hp1
      subst hix
      rfl
    · rw [List.mem_reverse]
      exact hperm.mem_iff.mpr (List.mem_map.mpr ⟨idx, _hidx, rfl⟩)
  have h1 : reassemble collected N = some ((List.range N).map f) :=
    lookupAll_eq_map _ f (List.range N) key
  exact ⟨h1, by rw [h1]; rfl, by rw [h1]; rfl⟩

/-- Claim C1, witness: three results collected in completion order `2, 0, 1`
reassemble to generation order `0, 1, 2`, with identical downstream grid
scores and best result. -/
theorem c1_witness :
    reassemble
        [(2, (⟨2, 1, 0, 2⟩ : FitResult ℕ)), (0, ⟨0, 1, 0, 0⟩), (1, ⟨1, 1, 0, 1⟩)] 3 =
      some ((List.range 3).map (fun (i : ℕ) => (⟨(i : ℚ), 1, 0, i⟩ : FitResult ℕ))) ∧
      (reassemble
          [(2, (⟨2, 1, 0, 2⟩ : FitResult ℕ)), (0, ⟨0, 1, 0, 0⟩), (1, ⟨1, 1, 0, 1⟩)] 3).map
          (fun out => gridScores false 1 out) =
        some (gridScores false 1
          ((List.range 3).map (fun (i : ℕ) => (⟨(i : ℚ), 1, 0, i⟩ : FitResult ℕ)))) ∧
      (reassemble
          [(2, (⟨2, 1, 0, 2⟩ : FitResult ℕ)), (0, ⟨0, 1, 0, 0⟩), (1, ⟨1, 1, 0, 1⟩)] 3).map
          (fun out => bestOf (gridScores false 1 out)) =
        some (bestOf (gridScores false 1
          ((List.range 3).map (fun (i : ℕ) => (⟨(i : ℚ), 1, 0, i⟩ : FitResult ℕ))))) :=
  c1_reassembly_deterministic 3 (fun (i : ℕ) => ⟨(i : ℚ), 1, 0, i⟩) false 1
    [(2, ⟨2, 1, 0, 2⟩), (0, ⟨0, 1, 0, 0⟩), (1, ⟨1, 1, 0, 1⟩)]
    (by with_unfolding_all decide)

/-! ### Claims C8 and C10: out-of-fold probabilities -/

/-- Writing fold predictions never changes the vector's length. -/
theorem writeIdx_length (fp : List ℕ → ℕ → ℚ) (tr : List ℕ) :
    ∀ (te : List ℕ) (pred : List ℚ), (writeIdx fp tr te pred).length = pred.length := by
  intro te
  induction te with
  | nil => intro pred; rfl
  | cons t ts ih => intro pred; rw [writeIdx, ih, List.length_set]

/-- Positions outside a fold's test list are untouched by its writes. -/
theorem writeIdx_get?_of_not_mem (fp : List ℕ → ℕ → ℚ) (tr : List ℕ) (s : ℕ) :
    ∀ (te : List ℕ) (pred : List ℚ), s ∉ te →
      (writeIdx fp tr te pred).get? s = pred.get? s := by
  intro te
  induction te with
  | nil => intro pred _; rfl
  | cons t ts ih =>
    intro pred hs
    have hts : t ≠ s := fun he => hs (by rw [he]; exact List.mem_cons_self s ts)
    rw [writeIdx, ih _ (fun hmem => hs (List.mem_cons_of_mem _ hmem)),
      List.get?_set_ne (fp tr t) pred hts]

/-- A position occurring exactly once in a fold's test list receives that
fold's prediction. -/
theorem writeIdx_get?_of_count_one (fp : List ℕ → ℕ → ℚ) (tr : List ℕ) (s : ℕ) :
    ∀ (te : List ℕ) (pred : List ℚ), te.count s = 1 → s < pred.length →
      (writeIdx fp tr te pred).get? s = some (fp tr s) := by
  intro te
  induction te with
  | nil => intro pred hc _; simp at hc
  | cons t ts ih =>
    intro pred hc hlen
    by_cases ht : t = s
    · subst ht
      have hc' : ts.count t = 0 := by
        rw [List.count_cons] at hc; simp at hc; omega
      have hnot : t ∉ ts := List.count_eq_zero.mp hc'
      rw [writeIdx, writeIdx_get?_of_not_mem fp tr t ts _ hnot,
        List.get?_set_eq, List.get?_eq_get hlen]
      rfl
    · have hc' : ts.count s = 1 := by
        rw [List.count_cons] at hc
        simp [show (t == s) = false from beq_false_of_ne ht] at hc
        exact hc
      have hs' : s ∈ ts := List.count_pos_iff.mp (by omega)
      rw [writeIdx]
      exact ih (pred.set t (fp tr t)) hc' (by rw [List.length_set]; exact hlen)

/-- Folds whose test lists avoid `s` leave position `s` unchanged. -/
theorem foldl_write_get?_of_not_mem (fp : List ℕ → ℕ → ℚ) (s : ℕ) :
    ∀ (cv : List (List ℕ × List ℕ)) (pred : List ℚ), (∀ f ∈ cv, s ∉ f.2) →
      (cv.foldl (fun pred fold => writeIdx fp fold.1 fold.2 pred) pred).get? s =
        pred.get? s := by
  intro cv
  induction cv with
  | nil => intro pred _; rfl
  | cons f fs ih =>
    intro pred hall
    rw [List.foldl_cons, ih _ (fun g hg => hall g (List.mem_cons_of_mem _ hg)),
      writeIdx_get?_of_not_mem fp f.1 s f.2 pred (hall f (List.mem_cons_self f fs))]

/-- The written vector always keeps length `n`. -/
theorem cross_val_probs_length (fp : List ℕ → ℕ → ℚ) :
    ∀ (cv : List (List ℕ × List ℕ)) (pred : List ℚ),
      (cv.foldl (fun pred fold => writeIdx fp fold.1 fold.2 pred) pred).length =
        pred.length := by
  intro cv
  induction cv with
  | nil => intro pred; rfl
  | cons f fs ih =>
    intro pred
    rw [List.foldl_cons, ih, writeIdx_length]

/-- The all-zero start vector holds `0` at every position below `n`. -/
theorem replicate_zero_get? : ∀ (n s : ℕ), s < n →
    (List.replicate n (0 : ℚ)).get? s = some 0 := by
  intro n
  induction n with
  | zero => intro s hs; omega
  | succ n ih =>
    intro s hs
    rw [List.replicate_succ]
    cases s with
    | zero => rfl
    | succ s => exact ih s (by omega)

/-- Claim C8: when the folds' test lists cover every sample index exactly once
and each fold's train and test sets are disjoint (the Fold invariant of the
data model), `cross_val_probs` returns exactly one probability per sample, and
the probability at each test index of a fold is the one produced by the model
fitted on that fold's train indices — a set that does not contain the sample
itself. -/
theorem c8_cross_val_probs_partition (fp : List ℕ → ℕ → ℚ) (n : ℕ)
    (cv : List (List ℕ × List ℕ))
    (hcover : ∀ s, s < n → (cv.flatMap (fun f => f.2)).count s = 1)
    (hbound : ∀ f ∈ cv, ∀ t ∈ f.2, t < n)
    (hdisj : ∀ f ∈ cv, ∀ t ∈ f.2, t ∉ f.1) :
    (cross_val_probs fp n cv).length = n ∧
      ∀ f ∈ cv, ∀ s ∈ f.2,
        (cross_val_probs fp n cv).get? s = some (fp f.1 s) ∧ s ∉ f.1 := by
  constructor
  · rw [cross_val_probs, cross_val_probs_length, List.length_replicate]
  · intro f hf s hs
    refine ⟨?_, hdisj f hf s hs⟩
    have hsn : s < n := hbound f hf s hs
    obtain ⟨l₁, l₂, rfl⟩ := List.append_of_mem hf
    have hcnt := hcover s hsn
    rw [List.flatMap_append, List.count_append] at hcnt
    have hfcons : ((f :: l₂).flatMap (fun f => f.2)) = f.2 ++ l₂.flatMap (fun f => f.2) := by
      simp
    rw [hfcons, List.count_append] at hcnt
    have hpos : 0 < f.2.count s := List.count_pos_iff.mpr hs
    have hone : f.2.count s = 1 := by omega
    have hzero₂ : (l₂.flatMap (fun f => f.2)).count s = 0 := by omega
    have hnot₂ : ∀ g ∈ l₂, s ∉ g.2 := by
      intro g hg hmem
      exact absurd (List.mem_flatMap.mpr ⟨g, hg, hmem⟩)
        (List.count_eq_zero.mp hzero₂)
    rw [cross_val_probs, List.foldl_append, List.foldl_cons,
      foldl_write_get?_of_not_mem fp s l₂ _ hnot₂]
    refine writeIdx_get?_of_count_one fp f.1 s f.2 _ hone ?_
    rw [cross_val_probs_length, List.length_replicate]
    exact hsn

/-- Claim C8, witness: two leave-one-out folds over two samples; each sample's
probability comes from the model fitted on the other sample only. -/
theorem c8_witness :
    (cross_val_probs (fun tr t_ => (tr.length : ℚ) + t_) 2 [([1], [0]), ([0], [1])]).length = 2 ∧
      ∀ f ∈ [([1], [0]), ([0], [1])], ∀ s ∈ f.2,
        (cross_val_probs (fun tr t_ => (tr.length : ℚ) + t_) 2
            [([1], [0]), ([0], [1])]).get? s =
          some ((fun tr t_ => (tr.length : ℚ) + t_) f.1 s) ∧ s ∉ f.1 :=
  c8_cross_val_probs_partition (fun tr t_ => (tr.length : ℚ) + t_) 2
    [([1], [0]), ([0], [1])] (by decide) (by decide) (by decide)

/-- Claim C10: `cross_val_probs` starts from `np.zeros(len(y))`, so any sample
index not covered by any fold's test list keeps probability exactly `0`, with
no error raised — the function returns a full-length vector regardless. -/
theorem c10_uncovered_index_zero (fp : List ℕ → ℕ → ℚ) (n : ℕ)
    (cv : List (List ℕ × List ℕ)) (s : ℕ) (hs : s < n)
    (hnc : ∀ f ∈ cv, s ∉ f.2) :
    (cross_val_probs fp n cv).length = n ∧
      (cross_val_probs fp n cv).get? s = some 0 := by
  constructor
  · rw [cross_val_probs, cross_val_probs_length, List.length_replicate]
  · rw [cross_val_probs, foldl_write_get?_of_not_mem fp s cv _ hnc]
    exact replicate_zero_get? n s hs

/-- Claim C10, witness: with a single fold testing only index 1, index 0 of
the returned vector is `0` even though the (constant-7) model would predict
`7` there. -/
theorem c10_witness :
    (cross_val_probs (fun _ _ => (7 : ℚ)) 2 [([0], [1])]).length = 2 ∧
      (cross_val_probs (fun _ _ => (7 : ℚ)) 2 [([0], [1])]).get? 0 = some 0 :=
  c10_uncovered_index_zero (fun _ _ => (7 : ℚ)) 2 [([0], [1])] 0 (by decide)
    (by decide)

/-! ### Claims C3, C4, C5: the two-bias scan

The proofs relate the mutable loop counters to closed forms over the sorted
table (`posCnt`/`negCnt` over initial segments), then run the loops by
induction over the remaining suffix. -/

/-- One unfolding step of the inner loop on a cons cell. -/
theorem innerLoop_cons (n i : ℕ) (pval pj yj : ℚ) (tl : List (ℚ × ℚ)) (j : ℕ)
    (rtp rtn rpos rneg : ℚ) (st : ℚ × List ℚ) :
    innerLoop n i pval ((pj, yj) :: tl) j rtp rtn rpos rneg st =
      if (if yj == 1 then rpos - 1 else rpos) = 0 ∨
          (if yj == 1 then rneg else rneg - 1) = 0 then st
      else if (if yj == 1 then rtp - 1 else rtp) /
            (if yj == 1 then rpos - 1 else rpos) ≥ 19/20 ∧
          rtn / (if yj == 1 then rneg else rneg - 1) ≥ 19/20 ∧
          ((j : ℚ) - (i : ℚ)) / (n : ℚ) < st.1 then
        innerLoop n i pval tl (j + 1) (if yj == 1 then rtp - 1 else rtp) rtn
          (if yj == 1 then rpos - 1 else rpos)
          (if yj == 1 then rneg else rneg - 1)
          (((j : ℚ) - (i : ℚ)) / (n : ℚ), [pval, pj])
      else
        innerLoop n i pval tl (j + 1) (if yj == 1 then rtp - 1 else rtp) rtn
          (if yj == 1 then rpos - 1 else rpos)
          (if yj == 1 then rneg else rneg - 1) st := rfl

/-- One unfolding step of the outer loop on a cons cell. -/
theorem outerLoop_cons (posq negq : ℚ) (n : ℕ) (pv yv : ℚ)
    (rest : List (ℚ × ℚ)) (i : ℕ) (tp tn : ℚ) (st : ℚ × List ℚ × Bool) :
    outerLoop posq negq n ((pv, yv) :: rest) i tp tn st =
      if (if yv == 1 then tp - 1 else tp) / posq ≥ 19/20 ∧
          (if yv == 1 then tn else tn + 1) / negq ≥ 19/20 then
        outerLoop posq negq n rest (i + 1) (if yv == 1 then tp - 1 else tp)
          (if yv == 1 then tn else tn + 1)
          (st.1, [pv, pv],
            st.2.2 || decide (posq = 0) ||
              (if (if yv == 1 then tp - 1 else tp) / posq ≥ 19/20 then
                decide (negq = 0) else false))
      else
        outerLoop posq negq n rest (i + 1) (if yv == 1 then tp - 1 else tp)
          (if yv == 1 then tn else tn + 1)
          ((innerLoop n i pv rest (i + 1) (if yv == 1 then tp - 1 else tp)
              (if yv == 1 then tn else tn + 1) posq negq (st.1, st.2.1)).1,
            (innerLoop n i pv rest (i + 1) (if yv == 1 then tp - 1 else tp)
              (if yv == 1 then tn else tn + 1) posq negq (st.1, st.2.1)).2,
            st.2.2 || decide (posq = 0) ||
              (if (if yv == 1 then tp - 1 else tp) / posq ≥ 19/20 then
                decide (negq = 0) else false)) := rfl

/-- `posCnt` over one more row of a cons cell. -/
theorem posCnt_cons (x : ℚ × ℚ) (t : List (ℚ × ℚ)) (k : ℕ) :
    posCnt (x :: t) (k + 1) =
      (if x.2 == 1 then 1 else 0) + posCnt t k := by
  unfold posCnt
  rw [List.take_succ_cons, List.filter_cons]
  by_cases hx : (x.2 == 1) = true <;> simp [hx] <;> omega

/-- `negCnt` over one more row of a cons cell. -/
theorem negCnt_cons (x : ℚ × ℚ) (t : List (ℚ × ℚ)) (k : ℕ) :
    negCnt (x :: t) (k + 1) =
      (if x.2 == 1 then 0 else 1) + negCnt t k := by
  unfold negCnt
  rw [List.take_succ_cons, List.filter_cons]
  by_cases hx : (x.2 == 1) = true <;> simp [hx] <;> omega

/-- Both label counters are zero on an empty initial segment. -/
theorem cnt_zero (db : List (ℚ × ℚ)) : posCnt db 0 = 0 ∧ negCnt db 0 = 0 := by
  constructor <;> rfl

/-- Stepping the initial segment across the row exposed by `drop`. -/
theorem cnt_step : ∀ (db : List (ℚ × ℚ)) (j : ℕ) (pv yv : ℚ)
    (rest : List (ℚ × ℚ)), db.drop j = (pv, yv) :: rest →
    posCnt db (j + 1) = posCnt db j + (if yv == 1 then 1 else 0) ∧
      negCnt db (j + 1) = negCnt db j + (if yv == 1 then 0 else 1) := by
  intro db
  induction db with
  | nil => intro j pv yv rest h; simp at h
  | cons x t ih =>
    intro j pv yv rest h
    cases j with
    | zero =>
      simp only [List.drop_zero] at h
      injection h with h1 h2
      subst h1
      constructor <;> by_cases hy : (yv == 1) = true <;>
        simp [posCnt_cons, negCnt_cons, hy, posCnt, negCnt]
    | succ j =>
      have h' : t.drop j = (pv, yv) :: rest := h
      obtain ⟨ih1, ih2⟩ := ih j pv yv rest h'
      constructor
      · rw [posCnt_cons, posCnt_cons, ih1, Nat.add_assoc]
      · rw [negCnt_cons, negCnt_cons, ih2, Nat.add_assoc]

/-- Under the no-feasible-paired-cut hypothesis, the inner loop leaves the
`(minloss, optbias)` state untouched: started at position `j > i` with
counters matching their closed forms, every iteration either breaks on an
emptied pool or fails the constraint test. -/
theorem innerLoop_preserve (db : List (ℚ × ℚ)) (posq negq : ℚ) (n i : ℕ)
    (pval : ℚ)
    (H : ∀ j, i < j → j < db.length → ¬ pairedOKAt db posq negq i j) :
    ∀ (rest : List (ℚ × ℚ)) (j : ℕ), db.drop j = rest → i < j →
      ∀ (rtp rtn rpos rneg : ℚ) (st : ℚ × List ℚ),
      rtp = posq - (posCnt db j : ℚ) →
      rtn = (negCnt db (i + 1) : ℚ) →
      rpos = posq - ((posCnt db j : ℚ) - (posCnt db (i + 1) : ℚ)) →
      rneg = negq - ((negCnt db j : ℚ) - (negCnt db (i + 1) : ℚ)) →
      innerLoop n i pval rest j rtp rtn rpos rneg st = st := by
  intro rest
  induction rest with
  | nil => intro j _ _ rtp rtn rpos rneg st _ _ _ _; rfl
  | cons hd tl ih =>
    intro j hdrop hij rtp rtn rpos rneg st htp htn hpos hneg
    obtain ⟨pj, yj⟩ := hd
    have hjlt : j < db.length := by
      by_contra hge
      rw [List.drop_eq_nil_of_le (not_lt.mp hge)] at hdrop
      exact List.noConfusion hdrop
    obtain ⟨hps, hns⟩ := cnt_step db j pj yj tl hdrop
    have hdrop' : db.drop (j + 1) = tl := by
      have h1 : (db.drop j).drop 1 = db.drop (j + 1) := by
        rw [List.drop_drop]
      rw [hdrop] at h1
      simpa using h1.symm
    rw [innerLoop_cons]
    have htp' : (if yj == 1 then rtp - 1 else rtp) =
        posq - (posCnt db (j + 1) : ℚ) := by
      rw [htp, hps]
      by_cases hy : (yj == 1) = true <;> simp [hy] <;> push_cast <;> ring
    have hpos' : (if yj == 1 then rpos - 1 else rpos) =
        posq - ((posCnt db (j + 1) : ℚ) - (posCnt db (i + 1) : ℚ)) := by
      rw [hpos, hps]
      by_cases hy : (yj == 1) = true <;> simp [hy] <;> push_cast <;> ring
    have hneg' : (if yj == 1 then rneg else rneg - 1) =
        negq - ((negCnt db (j + 1) : ℚ) - (negCnt db (i + 1) : ℚ)) := by
      rw [hneg, hns]
      by_cases hy : (yj == 1) = true <;> simp [hy] <;> push_cast <;> ring
    rw [htp', hpos', hneg', htn]
    by_cases hbr : (posq - ((posCnt db (j + 1) : ℚ) - (posCnt db (i + 1) : ℚ))) = 0 ∨
        (negq - ((negCnt db (j + 1) : ℚ) - (negCnt db (i + 1) : ℚ))) = 0
    · rw [if_pos hbr]
    · rw [if_neg hbr]
      have hnocond : ¬((posq - (posCnt db (j + 1) : ℚ)) /
            (posq - ((posCnt db (j + 1) : ℚ) - (posCnt db (i + 1) : ℚ))) ≥ 19/20 ∧
          ((negCnt db (i + 1) : ℚ)) /
            (negq - ((negCnt db (j + 1) : ℚ) - (negCnt db (i + 1) : ℚ))) ≥ 19/20 ∧
          ((j : ℚ) - (i : ℚ)) / (n : ℚ) < st.1) := by
        intro hc
        exact H j hij hjlt ⟨hbr, hc.1, hc.2.1⟩
      rw [if_neg hnocond]
      exact ih (j + 1) hdrop' (Nat.lt_succ_of_lt hij) _ _ _ _ st rfl rfl rfl rfl

/-- `lastSCAux` returns exactly the largest single-cut index of its scan
window, and `none` exactly when the window holds no single-cut index. -/
theorem lastSCAux_spec (db : List (ℚ × ℚ)) (posq negq : ℚ) :
    ∀ (c i : ℕ),
      (∀ k, lastSCAux db posq negq c i = some k →
        i ≤ k ∧ k < i + c ∧ singleCutAt db posq negq k ∧
          ∀ k', k < k' → k' < i + c → ¬ singleCutAt db posq negq k') ∧
      (lastSCAux db posq negq c i = none →
        ∀ k, i ≤ k → k < i + c → ¬ singleCutAt db posq negq k) := by
  intro c
  induction c with
  | zero =>
    intro i
    constructor
    · intro k h; exact absurd h (by rw [lastSCAux]; simp)
    · intro _ k hk1 hk2; omega
  | succ c ih =>
    intro i
    obtain ⟨ihs, ihn⟩ := ih (i + 1)
    constructor
    · intro k h
      rw [lastSCAux] at h
      cases haux : lastSCAux db posq negq c (i + 1) with
      | some k0 =>
        rw [haux] at h
        have hk : k0 = k := by simpa using h
        obtain rfl := hk
        obtain ⟨hb1, hb2, hsc, hmax⟩ := ihs k0 haux
        exact ⟨by omega, by omega, hsc, fun k' hk'1 hk'2 => hmax k' hk'1 (by omega)⟩
      | none =>
        rw [haux] at h
        simp only [] at h
        by_cases hsc : singleCutAt db posq negq i
        · rw [if_pos hsc] at h
          have hk : i = k := by simpa using h
          obtain rfl := hk
          refine ⟨le_refl _, by omega, hsc, ?_⟩
          intro k' hk'1 hk'2
          exact ihn haux k' (by omega) (by omega)
        · rw [if_neg hsc] at h
          exact absurd h (by simp)
    · intro h k hk1 hk2
      rw [lastSCAux] at h
      cases haux : lastSCAux db posq negq c (i + 1) with
      | some k0 => rw [haux] at h; exact absurd h (by simp)
      | none =>
        rw [haux] at h
        by_cases hsc : singleCutAt db posq negq i
        · rw [if_pos hsc] at h; exact absurd h (by simp)
        · rcases Nat.eq_or_lt_of_le hk1 with he | hlt
          · rw [← he]; exact hsc
          · exact ihn haux k hlt (by omega)

/-- Under the no-feasible-paired-cut hypothesis the outer loop never changes
`minloss`, and its final `optbias` is the zero-width pair of the LAST
single-cut index of the remaining scan (or the incoming `optbias` when there
is none): the single-cut branch overwrites `optbias` without touching
`minloss`, and the inner loop is inert. -/
theorem outerLoop_run (db : List (ℚ × ℚ)) (posq negq : ℚ) (n : ℕ)
    (H2 : ∀ i j, i < j → j < db.length → ¬ pairedOKAt db posq negq i j) :
    ∀ (rest : List (ℚ × ℚ)) (i : ℕ), db.drop i = rest →
      ∀ (tp tn ml : ℚ) (ob : List ℚ) (dz : Bool),
      tp = posq - (posCnt db i : ℚ) →
      tn = (negCnt db i : ℚ) →
      (outerLoop posq negq n rest i tp tn (ml, ob, dz)).1 = ml ∧
        (outerLoop posq negq n rest i tp tn (ml, ob, dz)).2.1 =
          (lastSCAux db posq negq (db.length - i) i).elim ob (zeroWidth db) := by
  intro rest
  induction rest with
  | nil =>
    intro i hdrop tp tn ml ob dz _ _
    have hle : db.length ≤ i := List.drop_eq_nil_iff_le.mp hdrop
    have hz : db.length - i = 0 := by omega
    rw [hz]
    exact ⟨rfl, rfl⟩
  | cons hd tl ih =>
    intro i hdrop tp tn ml ob dz htp htn
    obtain ⟨pv, yv⟩ := hd
    have hilt : i < db.length := by
      by_contra hge
      rw [List.drop_eq_nil_of_le (not_lt.mp hge)] at hdrop
      exact List.noConfusion hdrop
    obtain ⟨hps, hns⟩ := cnt_step db i pv yv tl hdrop
    have hdrop' : db.drop (i + 1) = tl := by
      have h1 : (db.drop i).drop 1 = db.drop (i + 1) := by rw [List.drop_drop]
      rw [hdrop] at h1
      simpa using h1.symm
    have hgeti : db[i]? = some (pv, yv) := by
      have h0 : (db.drop i)[0]? = db[i + 0]? := List.getElem?_drop db i 0
      rw [hdrop] at h0
      simpa using h0.symm
    rw [outerLoop_cons]
    have htp' : (if yv == 1 then tp - 1 else tp) =
        posq - (posCnt db (i + 1) : ℚ) := by
      rw [htp, hps]
      by_cases hy : (yv == 1) = true <;> simp [hy] <;> push_cast <;> ring
    have htn' : (if yv == 1 then tn else tn + 1) = (negCnt db (i + 1) : ℚ) := by
      rw [htn, hns]
      by_cases hy : (yv == 1) = true <;> simp [hy] <;> push_cast <;> ring
    rw [htp', htn']
    have hc : db.length - i = (db.length - (i + 1)) + 1 := by omega
    rw [hc]
    by_cases hsc : singleCutAt db posq negq i
    · have hcond : (posq - (posCnt db (i + 1) : ℚ)) / posq ≥ 19/20 ∧
          ((negCnt db (i + 1) : ℚ)) / negq ≥ 19/20 := hsc
      rw [if_pos hcond]
      obtain ⟨ih1, ih2⟩ := ih (i + 1) hdrop'
        (posq - (posCnt db (i + 1) : ℚ)) ((negCnt db (i + 1) : ℚ)) ml [pv, pv]
        ((ml, ob, dz).2.2 || decide (posq = 0) ||
          (if (posq - (posCnt db (i + 1) : ℚ)) / posq ≥ 19/20 then
            decide (negq = 0) else false)) rfl rfl
      refine ⟨ih1, ih2.trans ?_⟩
      rw [lastSCAux]
      cases haux : lastSCAux db posq negq (db.length - (i + 1)) (i + 1) with
      | some k => simp [haux]
      | none => simp [haux, if_pos hsc, zeroWidth, hgeti]
    · have hcond : ¬((posq - (posCnt db (i + 1) : ℚ)) / posq ≥ 19/20 ∧
          ((negCnt db (i + 1) : ℚ)) / negq ≥ 19/20) := fun hc' => hsc hc'
      rw [if_neg hcond]
      have hinner : innerLoop n i pv tl (i + 1) (posq - (posCnt db (i + 1) : ℚ))
          ((negCnt db (i + 1) : ℚ)) posq negq ((ml, ob, dz).1, (ml, ob, dz).2.1) =
          ((ml, ob, dz).1, (ml, ob, dz).2.1) := by
        refine innerLoop_preserve db posq negq n i pv
          (fun j hij hjlt => H2 i j hij hjlt) tl (i + 1) hdrop'
          (Nat.lt_succ_self i) _ _ _ _ _ rfl rfl (by ring) (by ring)
      rw [hinner]
      obtain ⟨ih1, ih2⟩ := ih (i + 1) hdrop'
        (posq - (posCnt db (i + 1) : ℚ)) ((negCnt db (i + 1) : ℚ)) ml ob
        ((ml, ob, dz).2.2 || decide (posq = 0) ||
          (if (posq - (posCnt db (i + 1) : ℚ)) / posq ≥ 19/20 then
            decide (negq = 0) else false)) rfl rfl
      refine ⟨ih1, ih2.trans ?_⟩
      rw [lastSCAux]
      cases haux : lastSCAux db posq negq (db.length - (i + 1)) (i + 1) with
      | some k => simp [haux]
      | none => simp [haux, if_neg hsc]

/-- With an empty positive pool (`running_pos = 0`) and no positive labels in
the suffix, the inner loop breaks at its first iteration (the pool guard runs
before any quotient): the state is returned untouched. -/
theorem innerLoop_rpos_zero (n i : ℕ) (pval : ℚ) (suffix : List (ℚ × ℚ))
    (hall : ∀ r ∈ suffix, ¬ r.2 = 1) (j : ℕ) (rtp rtn rneg : ℚ)
    (st : ℚ × List ℚ) :
    innerLoop n i pval suffix j rtp rtn 0 rneg st = st := by
  cases suffix with
  | nil => rfl
  | cons hd tl =>
    obtain ⟨pj, yj⟩ := hd
    have hy : (yj == 1) = false := by
      simpa using hall (pj, yj) (List.mem_cons_self _ _)
    rw [innerLoop_cons]
    simp only [hy, Bool.false_eq_true, if_false]
    simp

/-- With an empty negative pool (`running_neg = 0`) and only positive labels
in the suffix, the inner loop likewise breaks immediately. -/
theorem innerLoop_rneg_zero (n i : ℕ) (pval : ℚ) (suffix : List (ℚ × ℚ))
    (hall : ∀ r ∈ suffix, r.2 = 1) (j : ℕ) (rtp rtn rpos : ℚ)
    (st : ℚ × List ℚ) :
    innerLoop n i pval suffix j rtp rtn rpos 0 st = st := by
  cases suffix with
  | nil => rfl
  | cons hd tl =>
    obtain ⟨pj, yj⟩ := hd
    have hy : (yj == 1) = true := by
      simpa using hall (pj, yj) (List.mem_cons_self _ _)
    rw [innerLoop_cons]
    simp only [hy, eq_self_iff_true, if_true]
    simp

/-- With `pos = 0` (no sample labelled `1`) the outer loop returns its state
unchanged except for the ghost flag, which records the `tp/pos` zero-denominator
evaluation as soon as one row is scanned: the single-cut test compares
`0/0 ≥ 0.95` (numpy: `nan >= 0.95`), which fails, and the inner loop breaks on
its emptied positive pool. -/
theorem outerLoop_pos_zero (negq : ℚ) (n : ℕ) :
    ∀ (rest : List (ℚ × ℚ)), (∀ r ∈ rest, ¬ r.2 = 1) →
      ∀ (i : ℕ) (tp tn : ℚ) (st : ℚ × List ℚ × Bool),
      outerLoop 0 negq n rest i tp tn st =
        (st.1, st.2.1, st.2.2 || !rest.isEmpty) := by
  intro rest
  induction rest with
  | nil =>
    intro _ i tp tn st
    show st = (st.1, st.2.1, st.2.2 || !List.isEmpty [])
    simp
  | cons hd tl ih =>
    intro hall i tp tn st
    obtain ⟨pv, yv⟩ := hd
    have hy : (yv == 1) = false := by
      simpa using hall (pv, yv) (List.mem_cons_self _ _)
    have hd0 : decide ((0:ℚ) = 0) = true := decide_eq_true rfl
    rw [outerLoop_cons]
    simp only [hy, Bool.false_eq_true, if_false]
    have hcond : ¬(tp / (0:ℚ) ≥ 19/20 ∧ (tn + 1) / negq ≥ 19/20) := by
      intro hcc
      have h1 := hcc.1
      rw [div_zero] at h1
      norm_num at h1
    rw [if_neg hcond]
    rw [innerLoop_rpos_zero n i pv tl
      (fun r hr => hall r (List.mem_cons_of_mem _ hr)) (i + 1) tp (tn + 1) negq
      (st.1, st.2.1)]
    refine (ih (fun r hr => hall r (List.mem_cons_of_mem _ hr)) (i + 1) tp
      (tn + 1) _).trans ?_
    simp [hd0]

/-- With `neg = 0` (every sample labelled `1`) the outer loop leaves
`(minloss, optbias)` unchanged: the single-cut test compares `tn/neg = 0/0`
(numpy: `nan >= 0.95`), which fails, and the inner loop breaks on its emptied
negative pool. -/
theorem outerLoop_neg_zero (posq : ℚ) (n : ℕ) :
    ∀ (rest : List (ℚ × ℚ)), (∀ r ∈ rest, r.2 = 1) →
      ∀ (i : ℕ) (tp tn : ℚ) (st : ℚ × List ℚ × Bool),
      (outerLoop posq 0 n rest i tp tn st).1 = st.1 ∧
        (outerLoop posq 0 n rest i tp tn st).2.1 = st.2.1 := by
  intro rest
  induction rest with
  | nil => intro _ i tp tn st; exact ⟨rfl, rfl⟩
  | cons hd tl ih =>
    intro hall i tp tn st
    obtain ⟨pv, yv⟩ := hd
    have hy : (yv == 1) = true := by
      simpa using hall (pv, yv) (List.mem_cons_self _ _)
    rw [outerLoop_cons]
    simp only [hy, eq_self_iff_true, if_true]
    have hcond : ¬((tp - 1) / posq ≥ 19/20 ∧ tn / (0:ℚ) ≥ 19/20) := by
      intro hcc
      have h2 := hcc.2
      rw [div_zero] at h2
      norm_num at h2
    rw [if_neg hcond]
    rw [innerLoop_rneg_zero n i pv tl
      (fun r hr => hall r (List.mem_cons_of_mem _ hr)) (i + 1) (tp - 1) tn posq
      (st.1, st.2.1)]
    exact ⟨(ih (fun r hr => hall r (List.mem_cons_of_mem _ hr)) (i + 1) (tp - 1)
        tn _).1,
      (ih (fun r hr => hall r (List.mem_cons_of_mem _ hr)) (i + 1) (tp - 1)
        tn _).2⟩

/-- `insertAsc` permutes its input. -/
theorem insertAsc_perm (x : ℚ × ℚ) (l : List (ℚ × ℚ)) :
    (insertAsc x l).Perm (x :: l) := by
  induction l with
  | nil => exact List.Perm.refl _
  | cons y t ih =>
    rw [insertAsc]
    by_cases h : y.1 < x.1
    · rw [if_pos h]
      exact (ih.cons y).trans (List.Perm.swap x y t)
    · rw [if_neg h]

/-- `sortAsc` permutes its input. -/
theorem sortAsc_perm : ∀ (l : List (ℚ × ℚ)), (sortAsc l).Perm l
  | [] => List.Perm.refl _
  | x :: t => (insertAsc_perm x (sortAsc t)).trans ((sortAsc_perm t).cons x)

/-- Every label stored in the sorted table comes from `y`. -/
theorem mem_sortedDB_label {probs y : List ℚ} {r : ℚ × ℚ}
    (h : r ∈ sortedDB probs y) : r.2 ∈ y := by
  obtain ⟨a, b⟩ := r
  exact (List.of_mem_zip ((sortAsc_perm _).mem_iff.mp h)).2

/-- The sorted table has one row per sample when lengths agree. -/
theorem sortedDB_length {probs y : List ℚ} (hlen : probs.length = y.length) :
    (sortedDB probs y).length = y.length := by
  rw [sortedDB, (sortAsc_perm _).length_eq, List.length_zip, hlen, Nat.min_self]

/-- Without any label `1`, `pos` is zero. -/
theorem posQ_zero {y : List ℚ} (h : ∀ l ∈ y, ¬ l = 1) : posQ y = 0 := by
  unfold posQ
  rw [List.filter_eq_nil.mpr (fun a ha => by simpa using h a ha)]
  rfl

/-- With every label `1`, `neg` is zero. -/
theorem negQ_zero {y : List ℚ} (h : ∀ l ∈ y, l = 1) : negQ y = 0 := by
  unfold negQ posQ
  rw [List.filter_eq_self.mpr (fun a ha => by simpa using h a ha)]
  ring

/-! #### Claim C3

The claim says that when a single threshold already meets both `0.95`
constraints, the scorer returns `[t, t]` with score `0`.  The zero-width pair
is indeed recorded, but the single-cut branch (lines 250-252) `continue`s
WITHOUT updating `minloss`, so the returned score `-minloss` stays the
negation of the best PAIRED-cut rejected fraction — `-1` when no paired cut
is feasible — never `0`. -/

/-- Claim C3, counterexample: on probabilities `[0.1, 0.2, 0.3, 0.4]` with
labels `[0, 0, 1, 1]`, a single cut (at sorted index 1) satisfies both
constraints, and the scorer does return the zero-width pair `[0.2, 0.2]` —
but with score `-1/4` (the best paired-cut loss), not `0`. -/
theorem c3_counterexample :
    singleCutAt (sortedDB [1/10, 2/10, 3/10, 4/10] [0, 0, 1, 1])
        (posQ [0, 0, 1, 1]) (negQ [0, 0, 1, 1]) 1 ∧
      two_bias_scorer_CV [1/10, 2/10, 3/10, 4/10] [0, 0, 1, 1] =
        (-(1/4), [1/5, 1/5]) ∧
      (two_bias_scorer_CV [1/10, 2/10, 3/10, 4/10] [0, 0, 1, 1]).1 ≠ 0 := by
  refine ⟨by with_unfolding_all decide, by with_unfolding_all decide,
    by with_unfolding_all decide⟩

/-- Claim C3 (amended): on input where some single cut meets both constraints
and no paired cut is ever feasible, the scorer returns the zero-width pair
`[t, t]` for `t` the probability at the LAST single-cut index — but the score
is `-1` (the untouched initial `minloss`), not `0`, because the single-cut
branch records the pair without updating the loss. -/
theorem c3_single_cut_keeps_minloss (probs y : List ℚ)
    (H2 : ∀ j, j < (sortedDB probs y).length → ∀ i, i < j →
      ¬ pairedOKAt (sortedDB probs y) (posQ y) (negQ y) i j)
    (HSC : ∃ i, i < (sortedDB probs y).length ∧
      singleCutAt (sortedDB probs y) (posQ y) (negQ y) i) :
    ∃ k pv yv, k < (sortedDB probs y).length ∧
      (sortedDB probs y)[k]? = some (pv, yv) ∧
      singleCutAt (sortedDB probs y) (posQ y) (negQ y) k ∧
      (∀ k', k < k' → k' < (sortedDB probs y).length →
        ¬ singleCutAt (sortedDB probs y) (posQ y) (negQ y) k') ∧
      two_bias_scorer_CV probs y = (-1, [pv, pv]) := by
  have H2' : ∀ i j, i < j → j < (sortedDB probs y).length →
      ¬ pairedOKAt (sortedDB probs y) (posQ y) (negQ y) i j :=
    fun i j hij hjlt => H2 j hjlt i hij
  obtain ⟨h1, h2⟩ := outerLoop_run (sortedDB probs y) (posQ y) (negQ y)
    y.length H2' (sortedDB probs y) 0 (by rw [List.drop_zero]) (posQ y) 0 1 []
    false (by simp [posCnt]) (by simp [negCnt])
  obtain ⟨i0, hi0, hsc0⟩ := HSC
  cases hval : lastSCAux (sortedDB probs y) (posQ y) (negQ y)
      ((sortedDB probs y).length - 0) 0 with
  | none =>
    exact absurd hsc0
      ((lastSCAux_spec (sortedDB probs y) (posQ y) (negQ y)
        ((sortedDB probs y).length - 0) 0).2 hval i0 (Nat.zero_le i0)
        (by omega))
  | some k =>
    obtain ⟨_, hkb, hksc, hkmax⟩ :=
      (lastSCAux_spec (sortedDB probs y) (posQ y) (negQ y)
        ((sortedDB probs y).length - 0) 0).1 k hval
    have hklt : k < (sortedDB probs y).length := by omega
    obtain ⟨⟨pv, yv⟩, hget⟩ : ∃ r, (sortedDB probs y)[k]? = some r :=
      ⟨(sortedDB probs y).get ⟨k, hklt⟩, by
        rw [List.getElem?_eq_getElem hklt]; rfl⟩
    refine ⟨k, pv, yv, hklt, hget, hksc,
      fun k' hk'1 hk'2 => hkmax k' hk'1 (by omega), ?_⟩
    have hfull : two_bias_scorer_CV probs y =
        (-(outerLoop (posQ y) (negQ y) y.length (sortedDB probs y) 0 (posQ y) 0
            (1, [], false)).1,
          (outerLoop (posQ y) (negQ y) y.length (sortedDB probs y) 0 (posQ y) 0
            (1, [], false)).2.1) := rfl
    rw [hfull, h1, h2, hval]
    show (-(1:ℚ), zeroWidth (sortedDB probs y) k) = (-1, [pv, pv])
    rw [zeroWidth, hget]

/-- Claim C3, witness: probabilities `[0.1, 0.2]` with labels `[0, 1]`; the
single cut below `0.2` separates perfectly, no paired cut is feasible, and
the scorer returns `(-1, [0.1, 0.1])`. -/
theorem c3_witness :
    ∃ k pv yv, k < (sortedDB [1/10, 2/10] [0, 1]).length ∧
      (sortedDB [1/10, 2/10] [0, 1])[k]? = some (pv, yv) ∧
      singleCutAt (sortedDB [1/10, 2/10] [0, 1]) (posQ [0, 1]) (negQ [0, 1]) k ∧
      (∀ k', k < k' → k' < (sortedDB [1/10, 2/10] [0, 1]).length →
        ¬ singleCutAt (sortedDB [1/10, 2/10] [0, 1]) (posQ [0, 1])
          (negQ [0, 1]) k') ∧
      two_bias_scorer_CV [1/10, 2/10] [0, 1] = (-1, [pv, pv]) :=
  c3_single_cut_keeps_minloss [1/10, 2/10] [0, 1]
    (by with_unfolding_all decide)
    ⟨0, by with_unfolding_all decide⟩

/-! #### Claim C4 -/

/-- Claim C4: when NO threshold pair — zero-width single cuts included — ever
satisfies both constraints, `two_bias_scorer_CV` returns normally (the
embedding is a total function; the source raises nothing on this path) with
the empty bias and score exactly `-1`, and the caller's
`if not bias == []` check then refuses to serialize a model. -/
theorem c4_no_feasible_pair (probs y : List ℚ)
    (H2 : ∀ j, j < (sortedDB probs y).length → ∀ i, i < j →
      ¬ pairedOKAt (sortedDB probs y) (posQ y) (negQ y) i j)
    (H1 : ∀ i, i < (sortedDB probs y).length →
      ¬ singleCutAt (sortedDB probs y) (posQ y) (negQ y) i) :
    two_bias_scorer_CV probs y = (-1, []) ∧
      shouldSaveModel (two_bias_scorer_CV probs y).2 = false := by
  have H2' : ∀ i j, i < j → j < (sortedDB probs y).length →
      ¬ pairedOKAt (sortedDB probs y) (posQ y) (negQ y) i j :=
    fun i j hij hjlt => H2 j hjlt i hij
  obtain ⟨h1, h2⟩ := outerLoop_run (sortedDB probs y) (posQ y) (negQ y)
    y.length H2' (sortedDB probs y) 0 (by rw [List.drop_zero]) (posQ y) 0 1 []
    false (by simp [posCnt]) (by simp [negCnt])
  have hval : lastSCAux (sortedDB probs y) (posQ y) (negQ y)
      ((sortedDB probs y).length - 0) 0 = none := by
    cases hval : lastSCAux (sortedDB probs y) (posQ y) (negQ y)
        ((sortedDB probs y).length - 0) 0 with
    | none => rfl
    | some k =>
      obtain ⟨_, hkb, hksc, _⟩ :=
        (lastSCAux_spec (sortedDB probs y) (posQ y) (negQ y)
          ((sortedDB probs y).length - 0) 0).1 k hval
      exact absurd hksc (H1 k (by omega))
  have hmain : two_bias_scorer_CV probs y = (-1, []) := by
    have hfull : two_bias_scorer_CV probs y =
        (-(outerLoop (posQ y) (negQ y) y.length (sortedDB probs y) 0 (posQ y) 0
            (1, [], false)).1,
          (outerLoop (posQ y) (negQ y) y.length (sortedDB probs y) 0 (posQ y) 0
            (1, [], false)).2.1) := rfl
    rw [hfull, h1, h2, hval]
    rfl
  refine ⟨hmain, ?_⟩
  rw [hmain]
  simp [shouldSaveModel]

/-- Claim C4, witness: probabilities `[0.1, 0.2]` with inverted labels
`[1, 0]` admit no feasible cut at all; the scorer returns `(-1, [])` and the
caller does not serialize. -/
theorem c4_witness :
    two_bias_scorer_CV [1/10, 2/10] [1, 0] = (-1, []) ∧
      shouldSaveModel (two_bias_scorer_CV [1/10, 2/10] [1, 0]).2 = false :=
  c4_no_feasible_pair [1/10, 2/10] [1, 0]
    (by with_unfolding_all decide) (by with_unfolding_all decide)

/-! #### Claim C5

The claim says single-class input never leads to a division by zero.  The
constraints are indeed treated as unsatisfiable (score `-1`, empty bias, no
exception: numpy turns `0/0` into `nan` with a warning, and `nan >= 0.95` is
false), and the inner loop's pool guard does keep its quotients
well-defined — but the OUTER single-cut check divides by the global `pos`
(and, once sensitivity passes, by `neg`) without any guard, so on a
zero-positive label vector `tp / pos` IS evaluated with a zero
denominator. -/

/-- Claim C5, counterexample: the label vector `[0, 0]` has one class only,
yet evaluating the scorer performs a zero-denominator quotient (`tp / pos`
with `pos = 0`) in its sensitivity computation. -/
theorem c5_counterexample :
    (∀ l ∈ ([0, 0] : List ℚ), ¬ l = 1) ∧
      two_bias_divzero [1/10, 2/10] [0, 0] = true := by
  refine ⟨by with_unfolding_all decide, by with_unfolding_all decide⟩

/-- Claim C5 (amended): on a single-class label vector the scorer treats the
constraints as unsatisfiable and returns `(-1, [])` without raising; the
inner loop's guard protects its quotients, but when the class present is the
negative one the outer check still evaluates `tp/pos` with denominator zero
(nan in numpy, harmless for the comparison). -/
theorem c5_single_class (probs y : List ℚ) (hlen : probs.length = y.length)
    (hne : y ≠ [])
    (hcls : (∀ l ∈ y, ¬ l = 1) ∨ (∀ l ∈ y, l = 1)) :
    two_bias_scorer_CV probs y = (-1, []) ∧
      ((∀ l ∈ y, ¬ l = 1) → two_bias_divzero probs y = true) := by
  have hdbne : sortedDB probs y ≠ [] := by
    intro hnil
    have hlen2 := sortedDB_length hlen
    rw [hnil] at hlen2
    exact hne (List.eq_nil_of_length_eq_zero hlen2.symm)
  have hie : (sortedDB probs y).isEmpty = false := by
    cases hdb : sortedDB probs y with
    | nil => exact absurd hdb hdbne
    | cons a t => rfl
  rcases hcls with hneg | hpos
  · have hp0 : posQ y = 0 := posQ_zero hneg
    have halldb : ∀ r ∈ sortedDB probs y, ¬ r.2 = 1 :=
      fun r hr => hneg r.2 (mem_sortedDB_label hr)
    have heq : outerLoop (posQ y) (negQ y) y.length (sortedDB probs y) 0
        (posQ y) 0 (1, [], false) =
        ((1 : ℚ), ([] : List ℚ),
          (false || !(sortedDB probs y).isEmpty : Bool)) := by
      rw [hp0]
      exact outerLoop_pos_zero (negQ y) y.length (sortedDB probs y) halldb 0 0
        0 (1, [], false)
    have htb : twoBiasFull probs y = (-1, [], true) := by
      show (-(outerLoop (posQ y) (negQ y) y.length (sortedDB probs y) 0
            (posQ y) 0 (1, [], false)).1,
          (outerLoop (posQ y) (negQ y) y.length (sortedDB probs y) 0 (posQ y) 0
            (1, [], false)).2.1,
          (outerLoop (posQ y) (negQ y) y.length (sortedDB probs y) 0 (posQ y) 0
            (1, [], false)).2.2) = _
      rw [heq, hie]
      simp
    constructor
    · show ((twoBiasFull probs y).1, (twoBiasFull probs y).2.1) = (-1, [])
      rw [htb]
    · intro _
      show (twoBiasFull probs y).2.2 = true
      rw [htb]
  · have hn0 : negQ y = 0 := negQ_zero hpos
    have halldb : ∀ r ∈ sortedDB probs y, r.2 = 1 :=
      fun r hr => hpos r.2 (mem_sortedDB_label hr)
    have hkey : (outerLoop (posQ y) (negQ y) y.length (sortedDB probs y) 0
          (posQ y) 0 (1, [], false)).1 = 1 ∧
        (outerLoop (posQ y) (negQ y) y.length (sortedDB probs y) 0 (posQ y) 0
          (1, [], false)).2.1 = [] := by
      rw [hn0]
      exact outerLoop_neg_zero (posQ y) y.length (sortedDB probs y) halldb 0
        (posQ y) 0 (1, [], false)
    constructor
    · show ((twoBiasFull probs y).1, (twoBiasFull probs y).2.1) = (-1, [])
      show (-(outerLoop (posQ y) (negQ y) y.length (sortedDB probs y) 0
          (posQ y) 0 (1, [], false)).1,
        (outerLoop (posQ y) (negQ y) y.length (sortedDB probs y) 0 (posQ y) 0
          (1, [], false)).2.1) = (-1, [])
      rw [hkey.1, hkey.2]
    · intro hneg'
      obtain ⟨a, t, rfl⟩ : ∃ a t, y = a :: t := by
        cases y with
        | nil => exact absurd rfl hne
        | cons a t => exact ⟨a, t, rfl⟩
      exact absurd (hpos a (List.mem_cons_self a t))
        (hneg' a (List.mem_cons_self a t))

/-- Claim C5, witness: the amended statement instantiated on probabilities
`[0.1, 0.2]` with the single-class labels `[0, 0]`. -/
theorem c5_witness :
    two_bias_scorer_CV [1/10, 2/10] [0, 0] = (-1, []) ∧
      ((∀ l ∈ ([0, 0] : List ℚ), ¬ l = 1) →
        two_bias_divzero [1/10, 2/10] [0, 0] = true) :=
  c5_single_class [1/10, 2/10] [0, 0] rfl (by simp)
    (Or.inl (by with_unfolding_all decide))
